import Mathlib

/-!
Verification of the `mycelium` typed bitfield engine.

The raw machine word of width `W` bits is embedded as a `Nat` together with an
explicit word-width parameter; all masking arithmetic is carried out with
explicit `% 2 ^ W`-style bounds.  The `bitfield!` macro layer
(`src/bitfield/src/bitfield.rs`) — the bitfield value type, its
`new`/`from_bits`/`with`/`set`/`get`/`try_get` methods, the field-registry
construction chain, and the `Debug`/`Display` formatter implementations — is
embedded from the source.  The packing-spec primitives (`least_significant`,
`next`, `pack`, `unpack`, `try_unpack`, `assert_all_valid`, …) live in a file
of the repository that is not part of the sources at hand, so they are
modelled from the specification, as marked on each definition.

A Rust panic is modelled as the `Except.error` case of an `Except` result: a
function that the code documents as panicking returns `Except.error` exactly
where the code would panic.
-/

namespace Mycelium

/-- Modelled from the spec (§3 Bit-Conversion Capability): the contract a
logical value type `V` implements to become packable into a raw word.
`WIDTH` is the number of bits the type occupies, `try_from_bits` interprets
the low `WIDTH` bits as a `V` (with a `V`-specific error type `E`), and
`into_bits` projects a `V` into its bit representation. -/
structure FromBits (V : Type) (E : Type) where
  WIDTH : Nat
  try_from_bits : Nat → Except E V
  into_bits : V → Nat

/-- A field descriptor (`Pack8`/`Pack16`/`Pack32`/`Pack64`/`PackUsize` in the
source, spec §3 Field Descriptor): an offset and a width into a raw word of
`wordBits` total bits, together with the bit-conversion capability of the
field's logical type.  The Rust `Owner` marker type parameter is a purely
compile-time device and has no runtime content, so it is not represented. -/
structure Field (V : Type) (E : Type) where
  wordBits : Nat
  offset : Nat
  width : Nat
  cap : FromBits V E

/-- The identity capability of the raw integer type itself (`FromBits`
implemented by the unsigned integers, spec §3: `WIDTH` = bit count,
conversions are the identity and never fail). -/
def natCap (W : Nat) : FromBits Nat String :=
  { WIDTH := W, try_from_bits := fun n => Except.ok n, into_bits := fun n => n }

/-- Modelled from the spec (§4.2): `mask = ((1 << width) - 1) << offset`. -/
def Field.mask (f : Field V E) : Nat :=
  ((1 <<< f.width) - 1) <<< f.offset

/-- The complement `!mask` of the field mask inside a `W`-bit word. -/
def Field.maskCompl (f : Field V E) : Nat :=
  ((1 <<< f.wordBits) - 1) ^^^ f.mask

/-- Modelled from the spec (§4.2): `pack(value, raw)` computes
`bits = (value.into_bits() << offset) & mask` and returns
`(raw & !mask) | bits`. -/
def Field.pack (f : Field V E) (v : V) (raw : Nat) : Nat :=
  (raw &&& f.maskCompl) ||| ((f.cap.into_bits v <<< f.offset) &&& f.mask)

/-- Modelled from the spec (§4.2): `pack_into` has the same effect as `pack`,
in place; the returned word is the new contents of the mutable reference. -/
def Field.pack_into (f : Field V E) (v : V) (raw : Nat) : Nat :=
  f.pack v raw

/-- Modelled from the spec (§4.2): `unpack_bits(raw)` returns the extracted,
right-shifted raw bits `(raw & mask) >> offset` without conversion. -/
def Field.unpack_bits (f : Field V E) (raw : Nat) : Nat :=
  (raw &&& f.mask) >>> f.offset

/-- Modelled from the spec (§4.2): `try_unpack(raw)` extracts the field's bits
and propagates the logical type's own conversion result. -/
def Field.try_unpack (f : Field V E) (raw : Nat) : Except E V :=
  f.cap.try_from_bits (f.unpack_bits raw)

/-- Modelled from the spec (§4.2): `unpack(raw)` performs the identical
extraction and conversion, but panics (here: `Except.error`) when the
conversion fails. -/
def Field.unpack (f : Field V E) (raw : Nat) : Except E V :=
  match f.cap.try_from_bits (f.unpack_bits raw) with
  | Except.ok v => Except.ok v
  | Except.error e => Except.error e

/-- Modelled from the spec (§4.1): `least_significant(width)` returns an
untyped descriptor at offset 0 with the given explicit width. -/
def Field.least_significant (W : Nat) (width : Nat) : Field Nat String :=
  { wordBits := W, offset := 0, width := width, cap := natCap W }

/-- Modelled from the spec (§4.1): `first()` returns a typed descriptor at
offset 0 whose width is the capability's `WIDTH`. -/
def Field.first (W : Nat) (c : FromBits V E) : Field V E :=
  { wordBits := W, offset := 0, width := c.WIDTH, cap := c }

/-- Modelled from the spec (§4.1): `next(width)` returns an untyped descriptor
at `offset = self.offset + self.width` with the given explicit width. -/
def Field.next (f : Field V E) (width : Nat) : Field Nat String :=
  { wordBits := f.wordBits, offset := f.offset + f.width, width := width
    cap := natCap f.wordBits }

/-- Modelled from the spec (§4.1): `then::<V2>()` returns a typed descriptor at
`offset = self.offset + self.width` with width `V2::WIDTH`. -/
def Field.then' (f : Field V E) (c : FromBits V2 E2) : Field V2 E2 :=
  { wordBits := f.wordBits, offset := f.offset + f.width, width := c.WIDTH
    cap := c }

/-- Modelled from the spec (§4.1): `remaining()` returns a descriptor covering
`[self.offset + self.width, TOTAL_BITS)`. -/
def Field.remaining (f : Field V E) : Field Nat String :=
  { wordBits := f.wordBits, offset := f.offset + f.width
    width := f.wordBits - (f.offset + f.width), cap := natCap f.wordBits }

/-- Modelled from the spec (§4.1): `typed()` erases the descriptor's logical
type for storage in the field registry, retaining offset and width. -/
def Field.typed (f : Field V E) : Field Nat String :=
  { wordBits := f.wordBits, offset := f.offset, width := f.width
    cap := natCap f.wordBits }

/-- Modelled from the spec (§4.1): `most_significant_index()`. -/
def Field.most_significant_index (f : Field V E) : Nat :=
  f.offset + f.width - 1

/-- Modelled from the spec (§4.1): `bits()` returns the width. -/
def Field.bits (f : Field V E) : Nat :=
  f.width

/-- The bitfield value newtype generated by `bitfield!`
(`$vis struct $Name($T)`, bitfield.rs line 283), wrapping the raw word. -/
structure BitfieldVal where
  bits : Nat

/-- `fn from_bits(bits: T) -> Self { Self(bits) }` (bitfield.rs lines 313-316). -/
def BitfieldVal.from_bits (bits : Nat) : BitfieldVal :=
  { bits := bits }

/-- `fn new() -> Self { Self(0) }` (bitfield.rs lines 318-321). -/
def BitfieldVal.new : BitfieldVal :=
  { bits := 0 }

/-- `fn with(self, field, value) -> Self { Self(field.pack(value, self.0)) }`
(bitfield.rs lines 323-330). -/
def BitfieldVal.with' (b : BitfieldVal) (f : Field V E) (v : V) : BitfieldVal :=
  { bits := f.pack v b.bits }

/-- `fn set(&mut self, field, value) { field.pack_into(value, &mut self.0) }`
(bitfield.rs lines 333-341); the mutated receiver is the returned value. -/
def BitfieldVal.set (b : BitfieldVal) (f : Field V E) (v : V) : BitfieldVal :=
  { bits := f.pack_into v b.bits }

/-- `fn get(self, field) -> T { field.unpack(self.0) }` (bitfield.rs lines
343-356); panics — here `Except.error` — on an invalid bit pattern. -/
def BitfieldVal.get (b : BitfieldVal) (f : Field V E) : Except E V :=
  f.unpack b.bits

/-- `fn try_get(self, field) -> Result<T, T::Error> { field.try_unpack(self.0) }`
(bitfield.rs lines 358-373). -/
def BitfieldVal.try_get (b : BitfieldVal) (f : Field V E) : Except E V :=
  f.try_unpack b.bits

/-- The doc-example bitfield `MyBitfield<u16>` (bitfield.rs lines 62-75):
`HELLO` is the first untyped field of width 6, expanded by the macro to
`least_significant(6).typed()` (bitfield.rs line 552). -/
def HELLO : Field Nat String :=
  (Field.least_significant 16 6).typed

/-- `_RESERVED = HELLO.next(4)` (macro rule, bitfield.rs line 530). -/
def RESERVED0 : Field Nat String :=
  HELLO.next 4

/-- `WORLD = _RESERVED.next(3)` (macro rule, bitfield.rs line 530). -/
def WORLD : Field Nat String :=
  RESERVED0.next 3

/-- The three-valued enum of the error-handling scenario (spec §8; the
`MyEnum` doc example, bitfield.rs lines 111-136): discriminants 0, 1 and 2
are valid, 3 is not. -/
inductive TE where
  | foo
  | bar
  | baz
deriving DecidableEq

/-- The `FromBits<u32>` implementation of the scenario enum (bitfield.rs lines
119-136): `BITS = 2`, `try_from_bits` maps 0, 1, 2 to the variants and rejects
everything else, `into_bits` is the discriminant. -/
def teCap : FromBits TE String :=
  { WIDTH := 2
    try_from_bits := fun n =>
      match n with
      | 0 => Except.ok TE.foo
      | 1 => Except.ok TE.bar
      | 2 => Except.ok TE.baz
      | _ => Except.error "expected one of 0b00, 0b01, or 0b10"
    into_bits := fun t =>
      match t with
      | TE.foo => 0
      | TE.bar => 1
      | TE.baz => 2 }

/-- A 2-bit enum field at offset 0 of a 32-bit word: the first typed field of
a bitfield, expanded by the macro to `first()` (bitfield.rs line 562). -/
def ENUM_VALUE : Field TE String :=
  Field.first 32 teCap

/-- One entry of a heterogeneous write sequence: some field descriptor
together with a value of its logical type. -/
structure SomeWrite where
  V : Type
  E : Type
  f : Field V E
  v : V

/-- Folds a write sequence with the builder-style `with` method
(bitfield.rs lines 323-330). -/
def withChain (b : BitfieldVal) : List SomeWrite → BitfieldVal
  | [] => b
  | w :: ws => withChain (b.with' w.f w.v) ws

/-- Folds a write sequence with the mutating `set` method
(bitfield.rs lines 333-341). -/
def setChain (b : BitfieldVal) : List SomeWrite → BitfieldVal
  | [] => b
  | w :: ws => setChain (b.set w.f w.v) ws

/-- The conclusion of the pack arithmetic claim, for a field `f`, value `v`
and starting word `raw`: the masking formula, preservation of all bits
outside `[offset, offset + width)`, no accumulation across repeated packs,
truncation of the value to the low `width` bits, and no spill beyond the
word width. -/
def C2Prop (f : Field V E) (v : V) (raw : Nat) : Prop :=
  f.pack v raw =
      (raw &&& f.maskCompl) ||| ((f.cap.into_bits v <<< f.offset) &&& f.mask)
    ∧ (∀ i, ¬ (f.offset ≤ i ∧ i < f.offset + f.width) →
        (f.pack v raw).testBit i = raw.testBit i)
    ∧ (∀ v2, f.pack v (f.pack v2 raw) = f.pack v raw)
    ∧ f.unpack_bits (f.pack v raw) = f.cap.into_bits v % 2 ^ f.width
    ∧ f.pack v raw < 2 ^ f.wordBits

/-- The reserved-name convention: `name.starts_with("_")` — the name's first
character is the reserved marker. -/
def isReserved (name : String) : Bool :=
  match name.data with
  | [] => false
  | c :: _ => c == '_'

/-- A type-erased registry entry: what a descriptor stored in `FIELDS`
(bitfield.rs lines 309-311) exposes — its offset and width (spec §3 Field
Registry). -/
structure TypedF where
  offset : Nat
  width : Nat
deriving DecidableEq

/-- Bit `i` lies inside the `[offset, offset + width)` range of a registry
entry. -/
def FieldBit (f : TypedF) (i : Nat) : Prop :=
  f.offset ≤ i ∧ i < f.offset + f.width

/-- The two bit ranges intersect: their greatest lower bound lies below both
upper bounds. -/
def overlapB (a b : TypedF) : Bool :=
  decide (max a.offset b.offset < min (a.offset + a.width) (b.offset + b.width))

/-- Scans the registry for any pair of entries with intersecting bit ranges,
returning the two field names. -/
def findOverlap : List (String × TypedF) → Option (String × String)
  | [] => none
  | (n, f) :: rest =>
    match rest.find? (fun q => overlapB f q.2) with
    | some (m, _) => some (n, m)
    | none => findOverlap rest

/-- Finds the first named offset that fails to be strictly above its
predecessor. -/
def firstDisorder : List (String × Nat) → Option String
  | (_, a) :: (m, b) :: t =>
    if a < b then firstDisorder ((m, b) :: t) else some m
  | _ => none

/-- The non-reserved registry entries (those whose name does not start with
the reserved marker), each with its offset, in declaration order. -/
def nonReservedOffsets (fs : List (String × TypedF)) : List (String × Nat) :=
  (fs.filter (fun p => !(isReserved p.1))).map (fun p => (p.1, p.2.offset))

/-- Modelled from the spec (§4.3): `assert_all_valid(fields)` walks the
registry and panics — here `Except.error` — naming the violated field and
reason, if any field's range exceeds `[0, TOTAL_BITS)`, any two fields'
ranges overlap, or the non-reserved fields are not in strictly ascending
offset order; otherwise it returns normally. -/
def assert_all_valid (W : Nat) (fs : List (String × TypedF)) :
    Except String Unit :=
  match fs.find? (fun p => !(decide (p.2.offset + p.2.width ≤ W))) with
  | some (n, _) => Except.error (n ++ ": field range exceeds the total bits")
  | none =>
    match findOverlap fs with
    | some (n, m) => Except.error (n ++ ": overlaps with field " ++ m)
    | none =>
      match firstDisorder (nonReservedOffsets fs) with
      | some m => Except.error (m ++ ": fields are not in ascending order")
      | none => Except.ok ()

/-- `fn assert_valid()` (bitfield.rs lines 375-380): delegates to
`assert_all_valid` over the type's field registry. -/
def assert_valid (W : Nat) (fs : List (String × TypedF)) :
    Except String Unit :=
  assert_all_valid W fs

/-- The structural violations named by the claim: a pair of overlapping
fields, a field range exceeding `[0, TOTAL_BITS)`, or non-reserved fields
not strictly ordered by ascending offset in declaration order. -/
def RegistryViolation (W : Nat) (fs : List (String × TypedF)) : Prop :=
  (¬ List.Pairwise (fun a b => ∀ i, ¬ (FieldBit a.2 i ∧ FieldBit b.2 i)) fs)
  ∨ (∃ p ∈ fs, ¬ (p.2.offset + p.2.width ≤ W))
  ∨ ¬ List.Pairwise (fun a b => a.2 < b.2) (nonReservedOffsets fs)

/-- A bit-conversion capability with its logical type packaged up, so that
fields of different logical types can sit in one registry; `dbg` is the
logical type's `Debug` rendering, required of every field value by the
generated `Debug`/`Display` implementations. -/
structure AnyCap where
  V : Type
  cap : FromBits V String
  dbg : V → String

/-- The capability package of an untyped field: the raw integer itself,
rendered in decimal as Rust's `Debug` for unsigned integers does. -/
def natAny (W : Nat) : AnyCap :=
  { V := Nat, cap := natCap W, dbg := fun n => toString n }

/-- One field declaration consumed by the `bitfield!` macro (bitfield.rs line
276): an untyped field with an explicit literal width (`const F = n`), a
typed field (`const F: T`), or the trailing catch-all (`const F = ..`). -/
inductive Decl where
  | lit (name : String) (width : Nat)
  | typ (name : String) (c : AnyCap)
  | rem (name : String)

/-- The name of a declaration. -/
def Decl.name : Decl → String
  | Decl.lit n _ => n
  | Decl.typ n _ => n
  | Decl.rem n => n

/-- A fully elaborated registry entry: the field's name together with its
descriptor data and capability package.  `FIELDS` (bitfield.rs lines
309-311) stores exactly the names and the type-erased descriptors; the
`Debug`/`Display` implementations additionally use each field's own typed
constant, carried here as `c`. -/
structure EField where
  name : String
  wordBits : Nat
  offset : Nat
  width : Nat
  c : AnyCap

/-- The descriptor of an elaborated registry entry. -/
def EField.toField (f : EField) : Field f.c.V String :=
  { wordBits := f.wordBits, offset := f.offset, width := f.width
    cap := f.c.cap }

/-- The `@field` chain of the macro for every declaration after the first
(bitfield.rs lines 517-545): an untyped width becomes `Prev.next(width)`, a
typed field becomes `Prev.then::<V>()`, and the catch-all `..` becomes
`Prev.remaining()` and admits no further declarations. -/
def mkFieldsGo (W : Nat) (prev : EField) : List Decl → List EField
  | [] => []
  | Decl.lit n w :: rest =>
    let fld := prev.toField.next w
    let e : EField :=
      { name := n, wordBits := fld.wordBits, offset := fld.offset
        width := fld.width, c := natAny W }
    e :: mkFieldsGo W e rest
  | Decl.typ n c :: rest =>
    let fld := prev.toField.then' c.cap
    let e : EField :=
      { name := n, wordBits := fld.wordBits, offset := fld.offset
        width := fld.width, c := c }
    e :: mkFieldsGo W e rest
  | Decl.rem n :: _ =>
    let fld := prev.toField.remaining
    [{ name := n, wordBits := fld.wordBits, offset := fld.offset
       width := fld.width, c := natAny W }]

/-- The `@field` chain of the macro from the first declaration (bitfield.rs
lines 546-564): a leading untyped width becomes `least_significant(width)`
and a leading typed field becomes `first()`; the macro has no rule for a
leading `..` declaration. -/
def mkFields (W : Nat) : List Decl → List EField
  | [] => []
  | Decl.lit n w :: rest =>
    let fld := (Field.least_significant W w).typed
    let e : EField :=
      { name := n, wordBits := fld.wordBits, offset := fld.offset
        width := fld.width, c := natAny W }
    e :: mkFieldsGo W e rest
  | Decl.typ n c :: rest =>
    let fld := Field.first W c.cap
    let e : EField :=
      { name := n, wordBits := fld.wordBits, offset := fld.offset
        width := fld.width, c := c }
    e :: mkFieldsGo W e rest
  | Decl.rem _ :: _ => []

/-- The total number of bits claimed by the explicit (non-catch-all)
declarations. -/
def declsWidth : List Decl → Nat
  | [] => 0
  | Decl.lit _ w :: rest => w + declsWidth rest
  | Decl.typ _ c :: rest => c.cap.WIDTH + declsWidth rest
  | Decl.rem _ :: rest => declsWidth rest

/-- The catch-all `..` declaration, if present, is the last one — the only
shape the macro accepts (bitfield.rs lines 517-523 admit no trailing
declarations after `= ..`). -/
def remTrailing : List Decl → Bool
  | [] => true
  | Decl.rem _ :: rest => rest.isEmpty
  | _ :: rest => remTrailing rest

/-- The construction-chain invariant of the claim, for the registry of a
bitfield type declared over a `W`-bit word: the first field sits at offset
0, each subsequent field starts where the previous one ends, a trailing
catch-all field covers exactly the unused high bits up to `W`, and every
descriptor satisfies `offset + width ≤ W`. -/
def C8Prop (W : Nat) (decls : List Decl) : Prop :=
  (∀ f0, (mkFields W decls).head? = some f0 → f0.offset = 0)
  ∧ List.Chain' (fun a b => b.offset = a.offset + a.width) (mkFields W decls)
  ∧ ((∃ n, decls.getLast? = some (Decl.rem n)) →
      ∀ fl, (mkFields W decls).getLast? = some fl →
        fl.offset + fl.width = W)
  ∧ (∀ f ∈ mkFields W decls, f.offset + f.width ≤ W)

/-- The descriptor operations lifted to elaborated registry entries. -/
def EField.unpack_bits (f : EField) (raw : Nat) : Nat :=
  f.toField.unpack_bits raw

/-- The field's conversion attempt on the extracted bits; `Except.error`
wherever `get`/`unpack` would panic. -/
def EField.tryConv (f : EField) (raw : Nat) : Except String f.c.V :=
  f.c.cap.try_from_bits (f.unpack_bits raw)

/-- `most_significant_index()` of a registry entry (spec §4.1). -/
def EField.msi (f : EField) : Nat :=
  f.offset + f.width - 1

/-- The binary digits of a positive number, most significant first. -/
def binCore : Nat → List Char
  | 0 => []
  | n + 1 =>
    binCore ((n + 1) / 2) ++ [if (n + 1) % 2 = 1 then '1' else '0']
decreasing_by exact Nat.div_lt_self (Nat.succ_pos n) Nat.one_lt_two

/-- Rust's `{:0width$b}` formatting: the binary digits of `n` (a single `0`
for zero), left-padded with zeros to at least `width` characters. -/
def rustBinFmt (width n : Nat) : String :=
  let ds := if n = 0 then ['0'] else binCore n
  String.mk (List.replicate (width - ds.length) '0' ++ ds)

/-- A run of `k` blanks. -/
def blanks (k : Nat) : String :=
  String.mk (List.replicate k ' ')

/-- A run of `k` horizontal-line characters. -/
def dashes (k : Nat) : String :=
  String.mk (List.replicate k '─')

/-- The ruler-row connector glyph for a field of the given width
(bitfield.rs lines 407-416): a vertical bar for one bit, a corner pair for
two, and a corner, a dash run and a closing corner otherwise. -/
def rulerConnector (bits : Nat) : String :=
  match bits with
  | 1 => "│"
  | 2 => "└┤"
  | b => "└┬" ++ dashes (b - 3) ++ "┘"

/-- The state threaded through the ruler row of the `Display` implementation
(bitfield.rs lines 389-424): the emitted text, the bit cursor, the longest
non-reserved field name seen, and the column of the last connector. -/
structure RulerSt where
  out : String
  curPos : Nat
  maxLen : Nat
  rem : Nat

/-- One iteration of the ruler loop (bitfield.rs lines 393-424): pad with
blanks down to the field's most significant index; a reserved field then
emits only blanks for its width, otherwise the connector glyph is emitted,
the maximum name length is updated and, on the final iteration, the
remainder column is recorded. -/
def rulerStep (st : RulerSt) (isLast : Bool) (f : EField) : RulerSt :=
  let padN := st.curPos - f.msi
  let cur1 := min st.curPos f.msi
  if isReserved f.name then
    { out := st.out ++ blanks padN ++ blanks f.width
      curPos := cur1 - f.width, maxLen := st.maxLen, rem := st.rem }
  else
    { out := st.out ++ blanks padN ++ rulerConnector f.width
      curPos := cur1 - f.width
      maxLen := max st.maxLen f.name.length
      rem := if isLast then cur1 - (f.width - 1) else st.rem }

/-- The ruler loop over the reversed registry. -/
def rulerGo (st : RulerSt) : List EField → RulerSt
  | [] => st
  | [f] => rulerStep st true f
  | f :: rest => rulerGo (rulerStep st false f) rest

/-- The full ruler row: iterate `FIELDS` in reverse starting the cursor at
the word width (bitfield.rs lines 389-392). -/
def rulerRun (W : Nat) (fs : List EField) : RulerSt :=
  rulerGo { out := "", curPos := W, maxLen := 0, rem := 0 } fs.reverse

/-- The non-target connector emitted while an annotation row re-walks the
registry (bitfield.rs lines 444-458): blanks for a reserved field, a bar for
a single bit, and a blank, a bar and trailing blanks otherwise. -/
def annConnector (name : String) (bits : Nat) : String :=
  if isReserved name then blanks bits
  else if bits = 1 then "│"
  else " │" ++ blanks (bits - 2)

/-- The annotation row's registry walk (bitfield.rs lines 434-461): pad with
blanks down to each entry's most significant index, stop when the target
field (compared by offset and width, the type-erased descriptor equality) is
reached, and otherwise emit the connector and advance past the entry. -/
def annWalk (target : EField) : List EField → String × Nat → String × Nat
  | [], st => st
  | g :: rest, (out, cur) =>
    let out1 := out ++ blanks (cur - g.msi)
    let cur1 := min cur g.msi
    if target.offset == g.offset && target.width == g.width then
      (out1, cur1)
    else
      annWalk target rest (out1 ++ annConnector g.name g.width, cur1 - g.width)

/-- The tail of an annotation row (bitfield.rs line 475): a blank, the field
name, a colon, the `Debug` rendering of the unpacked value, and the field's
raw bits zero-padded to the field width, in parentheses. -/
def annSuffix (raw : Nat) (f : EField) : String :=
  " " ++ f.name ++ ": " ++
    (match f.tryConv raw with
     | Except.ok v => f.c.dbg v
     | Except.error _ => "") ++
    " (" ++ rustBinFmt f.width (f.unpack_bits raw) ++ ")"

/-- One annotation row (bitfield.rs lines 428-476): panics — here
`Except.error` — when `field.unpack` rejects the bits; otherwise the walk's
prefix, the drop-down corner, the dash run out to the name column, and the
row tail. -/
def annRow (W maxLen rm : Nat) (fs : List EField) (raw : Nat) (f : EField) :
    Except Unit String :=
  match f.tryConv raw with
  | Except.error _ => Except.error ()
  | Except.ok _ =>
    let wk := annWalk f fs.reverse ("", W)
    let pre :=
      if f.width = 1 then (wk.1 ++ "└", wk.2 - 1) else (wk.1 ++ " └", wk.2 - 2)
    let len := pre.2 + (maxLen - f.name.length)
    Except.ok (pre.1 ++ dashes (len - rm) ++ annSuffix raw f)

/-- The annotation rows: the macro emits one row per declared field in
declaration order, skipping names that start with the reserved marker
(bitfield.rs lines 428-478). -/
def annRows (W maxLen rm : Nat) (fs : List EField) (raw : Nat) :
    List EField → Except Unit (List String)
  | [] => Except.ok []
  | f :: rest =>
    if isReserved f.name then annRows W maxLen rm fs raw rest
    else
      match annRow W maxLen rm fs raw f with
      | Except.error u => Except.error u
      | Except.ok r =>
        match annRows W maxLen rm fs raw rest with
        | Except.error u => Except.error u
        | Except.ok rs => Except.ok (r :: rs)

/-- The `Display` implementation (bitfield.rs lines 384-482) as the list of
lines it writes: the zero-padded binary row, the ruler row, and one
annotation row per non-reserved field; `Except.error` wherever the
implementation would panic through `field.unpack`. -/
def displayLines (W : Nat) (fs : List EField) (raw : Nat) :
    Except Unit (List String) :=
  match annRows W (rulerRun W fs).maxLen (rulerRun W fs).rem fs raw fs with
  | Except.error u => Except.error u
  | Except.ok rows =>
    Except.ok (rustBinFmt W raw :: (rulerRun W fs).out :: rows)

/-- One `Debug` struct entry (bitfield.rs lines 289-291):
`dbg.field(stringify!($Field), &self.get(Self::$Field))` — the field name and
the `Debug` rendering of `get`, which panics — here `Except.error` — on an
invalid bit pattern.  Note the macro emits an entry for *every* declared
field. -/
def debugEntry (f : EField) (raw : Nat) : Except Unit (String × String) :=
  match f.tryConv raw with
  | Except.error _ => Except.error ()
  | Except.ok v => Except.ok (f.name, f.c.dbg v)

/-- The `Debug` implementation (bitfield.rs lines 285-295) as its list of
struct entries in declaration order. -/
def debugRender (fs : List EField) (raw : Nat) :
    Except Unit (List (String × String)) :=
  match fs with
  | [] => Except.ok []
  | f :: rest =>
    match debugEntry f raw with
    | Except.error u => Except.error u
    | Except.ok e =>
      match debugRender rest raw with
      | Except.error u => Except.error u
      | Except.ok es => Except.ok (e :: es)

/-- The non-reserved registry entries, in declaration order. -/
def nonRes (fs : List EField) : List EField :=
  fs.filter (fun f => !(isReserved f.name))

/-- The declarations of the doc-example bitfield `MyBitfield<u16>`
(bitfield.rs lines 62-75). -/
def mfDecls : List Decl :=
  [Decl.lit "HELLO" 6, Decl.lit "_RESERVED" 4, Decl.lit "WORLD" 3]

/-- The elaborated registry of the doc-example bitfield. -/
def mfFields : List EField :=
  mkFields 16 mfDecls

/-- The scenario enum packaged with its `Debug` rendering (the derived
`Debug` of the Rust enum prints the variant name). -/
def teAny : AnyCap :=
  { V := TE, cap := teCap
    dbg := fun t =>
      match t with
      | TE.foo => "Foo"
      | TE.bar => "Bar"
      | TE.baz => "Baz" }

/-- The conclusion of the `Display` claim for word width `W`, registry `fs`
and raw word `raw`: whenever formatting succeeds, the first line is the raw
integer as a zero-padded binary string of exactly `W` characters, and after
the ruler row there is exactly one annotation row per non-reserved field, in
declaration order, each ending with the field name, the `Debug` rendering of
its unpacked value, and the field's raw bits zero-padded to exactly the
field's width. -/
def C9Prop (W : Nat) (fs : List EField) (raw : Nat) : Prop :=
  ∀ lines, displayLines W fs raw = Except.ok lines →
    (∃ rest, lines = rustBinFmt W raw :: rest)
    ∧ (rustBinFmt W raw).length = W
    ∧ (lines.drop 2).length = (nonRes fs).length
    ∧ ∀ i (hi : i < (lines.drop 2).length) (hj : i < (nonRes fs).length),
        (∃ pre, (lines.drop 2).get ⟨i, hi⟩ =
            pre ++ annSuffix raw ((nonRes fs).get ⟨i, hj⟩))
        ∧ (rustBinFmt ((nonRes fs).get ⟨i, hj⟩).width
              (((nonRes fs).get ⟨i, hj⟩).unpack_bits raw)).length =
            ((nonRes fs).get ⟨i, hj⟩).width

theorem Field.testBit_mask (f : Field V E) (i : Nat) :
    f.mask.testBit i = decide (f.offset ≤ i ∧ i < f.offset + f.width) := by
  simp only [Field.mask, Nat.testBit_shiftLeft, Nat.one_shiftLeft,
    Nat.testBit_two_pow_sub_one, ← Bool.decide_and, decide_eq_decide]
  omega

theorem Field.testBit_pack (f : Field V E) (v : V) (raw i : Nat)
    (hw : f.offset + f.width ≤ f.wordBits) (hraw : raw < 2 ^ f.wordBits) :
    (f.pack v raw).testBit i =
      if f.offset ≤ i ∧ i < f.offset + f.width
      then (f.cap.into_bits v).testBit (i - f.offset)
      else raw.testBit i := by
  simp only [Field.pack, Field.maskCompl, Nat.testBit_or, Nat.testBit_and,
    Nat.testBit_xor, Nat.testBit_shiftLeft, Nat.one_shiftLeft,
    Nat.testBit_two_pow_sub_one, Field.testBit_mask]
  by_cases hio : f.offset ≤ i ∧ i < f.offset + f.width
  · have hiW : i < f.wordBits := by omega
    simp [hio, hio.1, hiW]
  · by_cases hiW : i < f.wordBits
    · simp [hio, hiW]
    · have : raw.testBit i = false :=
        Nat.testBit_lt_two_pow
          (lt_of_lt_of_le hraw (Nat.pow_le_pow_right (by omega) (by omega)))
      simp [hio, hiW, this]

theorem Field.pack_lt (f : Field V E) (v : V) (raw : Nat)
    (hw : f.offset + f.width ≤ f.wordBits) :
    f.pack v raw < 2 ^ f.wordBits := by
  have hmask : f.mask < 2 ^ f.wordBits := by
    have : f.mask ≤ (2 ^ f.width - 1) * 2 ^ f.offset := by
      simp [Field.mask, Nat.shiftLeft_eq, Nat.one_shiftLeft]
    calc f.mask ≤ (2 ^ f.width - 1) * 2 ^ f.offset := this
      _ < 2 ^ f.width * 2 ^ f.offset := by
          have h2 : 0 < 2 ^ f.offset := Nat.pos_pow_of_pos _ (by omega)
          have h1 : 2 ^ f.width - 1 < 2 ^ f.width :=
            Nat.sub_lt (Nat.pos_pow_of_pos _ (by omega)) (by omega)
          exact Nat.mul_lt_mul_of_lt_of_le h1 (le_refl _) h2
      _ = 2 ^ (f.width + f.offset) := (Nat.pow_add 2 f.width f.offset).symm
      _ ≤ 2 ^ f.wordBits := Nat.pow_le_pow_right (by omega) (by omega)
  have hcompl : f.maskCompl < 2 ^ f.wordBits := by
    have h1 : (1 <<< f.wordBits) - 1 < 2 ^ f.wordBits := by
      simp [Nat.one_shiftLeft]
    exact Nat.xor_lt_two_pow h1 hmask
  have hl : raw &&& f.maskCompl < 2 ^ f.wordBits :=
    lt_of_le_of_lt (Nat.and_le_right) hcompl
  have hr : (f.cap.into_bits v <<< f.offset) &&& f.mask < 2 ^ f.wordBits :=
    lt_of_le_of_lt (Nat.and_le_right) hmask
  exact Nat.or_lt_two_pow hl hr

theorem Field.unpack_bits_pack (f : Field V E) (v : V) (raw : Nat)
    (hw : f.offset + f.width ≤ f.wordBits) :
    f.unpack_bits (f.pack v raw) = f.cap.into_bits v % 2 ^ f.width := by
  apply Nat.eq_of_testBit_eq
  intro i
  simp only [Field.unpack_bits, Nat.testBit_shiftRight, Nat.testBit_and,
    Field.testBit_mask, Nat.testBit_mod_two_pow]
  simp only [Field.pack, Field.maskCompl, Nat.testBit_or, Nat.testBit_and,
    Nat.testBit_xor, Nat.testBit_shiftLeft, Nat.one_shiftLeft,
    Nat.testBit_two_pow_sub_one, Field.testBit_mask]
  by_cases hi : i < f.width
  · have h1 : f.offset ≤ f.offset + i := by omega
    have h2 : f.offset + i < f.offset + f.width := by omega
    have h3 : f.offset + i < f.wordBits := by omega
    simp [h1, h2, h3, hi, Nat.add_sub_cancel_left]
  · simp [hi]

/-- C2: `pack(v, raw)` equals `(raw & !mask) | ((into_bits(v) << o) & mask)`
with `mask = ((1 << w) - 1) << o`; bits of `raw` outside `[o, o + w)` are
unchanged, repeated packs do not accumulate, and a value wider than `w` bits
is truncated to its low `w` bits without spilling into neighbouring fields. -/
theorem c2_pack_masking (f : Field V E) (v : V) (raw : Nat)
    (hw : f.offset + f.width ≤ f.wordBits) (hraw : raw < 2 ^ f.wordBits) :
    C2Prop f v raw := by
  refine ⟨rfl, ?_, ?_, f.unpack_bits_pack v raw hw, f.pack_lt v raw hw⟩
  · intro i hio
    rw [f.testBit_pack v raw i hw hraw, if_neg hio]
  · intro v2
    apply Nat.eq_of_testBit_eq
    intro i
    have hp2 : f.pack v2 raw < 2 ^ f.wordBits := f.pack_lt v2 raw hw
    rw [f.testBit_pack v _ i hw hp2, f.testBit_pack v raw i hw hraw]
    by_cases hio : f.offset ≤ i ∧ i < f.offset + f.width
    · rw [if_pos hio, if_pos hio]
    · rw [if_neg hio, if_neg hio, f.testBit_pack v2 raw i hw hraw, if_neg hio]

/-- Witness for `c2_pack_masking` at the doc-example field `HELLO`
(offset 0, width 6 in a 16-bit word), value 100 and word 54321. -/
theorem c2_pack_masking_witness :
    (HELLO.offset + HELLO.width ≤ HELLO.wordBits) ∧ 54321 < 2 ^ HELLO.wordBits
      ∧ C2Prop HELLO 100 54321 :=
  ⟨by decide, by decide, c2_pack_masking HELLO 100 54321 (by decide) (by decide)⟩

/-- C1 (counterexample): the untyped doc-example field `HELLO` is 6 bits wide
while its logical type is the full 16-bit raw integer, for which the
capability laws hold at the value 64; yet packing 64 and unpacking again
yields 0, not 64 — the round trip fails for representable values wider than
the field. -/
theorem c1_counterexample :
    HELLO.try_unpack (HELLO.pack 64 0) ≠ Except.ok 64 ∧
    HELLO.cap.try_from_bits (HELLO.cap.into_bits 64) = Except.ok 64 ∧
    HELLO.cap.into_bits 64 < 2 ^ HELLO.cap.WIDTH := by
  refine ⟨?_, rfl, by decide⟩
  intro h
  have : (0 : Nat) = 64 := Except.ok.inj h
  exact absurd this (by decide)

/-- C1 (amended): for every field descriptor within the word, every value
whose bit representation fits in the field's width and on which the
capability round-trip law holds, and every starting raw word,
`try_unpack(pack(v, raw))` returns `Ok(v)`. -/
theorem c1_round_trip (f : Field V E) (v : V) (raw : Nat)
    (hw : f.offset + f.width ≤ f.wordBits)
    (hlaw : f.cap.try_from_bits (f.cap.into_bits v) = Except.ok v)
    (hfit : f.cap.into_bits v < 2 ^ f.width) :
    f.try_unpack (f.pack v raw) = Except.ok v := by
  rw [Field.try_unpack, f.unpack_bits_pack v raw hw, Nat.mod_eq_of_lt hfit,
    hlaw]

/-- Witness for `c1_round_trip` at `HELLO`, value 33, starting word 54321. -/
theorem c1_round_trip_witness :
    (HELLO.offset + HELLO.width ≤ HELLO.wordBits) ∧
    HELLO.cap.try_from_bits (HELLO.cap.into_bits 33) = Except.ok 33 ∧
    HELLO.cap.into_bits 33 < 2 ^ HELLO.width ∧
    HELLO.try_unpack (HELLO.pack 33 54321) = Except.ok 33 :=
  ⟨by decide, rfl, by decide,
    c1_round_trip HELLO 33 54321 (by decide) rfl (by decide)⟩

/-- C3: for the 16-bit doc-example bitfield with `HELLO` (6 bits at offset 0),
`_RESERVED` (4 bits at offset 6) and `WORLD` (3 bits at offset 10), the value
`from_bits(0b10100_0011_0101)` satisfies `get(HELLO) == 0b110101` and
`get(WORLD) == 0b0101` (bitfield.rs lines 79-83). -/
theorem c3_doc_example_gets :
    (BitfieldVal.from_bits 0b1010000110101).get HELLO = Except.ok 0b110101 ∧
    (BitfieldVal.from_bits 0b1010000110101).get WORLD = Except.ok 0b0101 :=
  ⟨rfl, rfl⟩

/-- C4: `get` panics (modelled as `Except.error`) exactly when the logical
type's `try_from_bits` rejects the extracted bits, in which case `try_get`
returns the logical type's own conversion error; when `try_from_bits`
accepts, `get` and `try_get` both return the converted value.  Concretely,
for a 2-bit enum field valid on 0, 1, 2 at offset 0 of a 32-bit word,
`from_bits(0b11).try_get(E)` is the enum's error and `from_bits(0b10).get(E)`
is the variant mapped from 2. -/
theorem c4_get_panics_iff_rejected :
    (∀ (V E : Type) (f : Field V E) (b : BitfieldVal),
      (∀ e, f.cap.try_from_bits (f.unpack_bits b.bits) = Except.error e →
        b.get f = Except.error e ∧ b.try_get f = Except.error e) ∧
      (∀ v, f.cap.try_from_bits (f.unpack_bits b.bits) = Except.ok v →
        b.get f = Except.ok v ∧ b.try_get f = Except.ok v)) ∧
    (BitfieldVal.from_bits 0b11).try_get ENUM_VALUE =
      Except.error "expected one of 0b00, 0b01, or 0b10" ∧
    (BitfieldVal.from_bits 0b10).get ENUM_VALUE = Except.ok TE.baz := by
  refine ⟨fun V E f b => ⟨?_, ?_⟩, rfl, rfl⟩
  · intro e h
    constructor
    · simp [BitfieldVal.get, Field.unpack, h]
    · simp [BitfieldVal.try_get, Field.try_unpack, h]
  · intro v h
    constructor
    · simp [BitfieldVal.get, Field.unpack, h]
    · simp [BitfieldVal.try_get, Field.try_unpack, h]

/-- Witness for `c4_get_panics_iff_rejected`: its generic part applied to the
enum field at the rejected bit pattern `0b11`. -/
theorem c4_get_panics_iff_rejected_witness :
    ENUM_VALUE.cap.try_from_bits
        (ENUM_VALUE.unpack_bits (BitfieldVal.from_bits 0b11).bits) =
      Except.error "expected one of 0b00, 0b01, or 0b10" ∧
    (BitfieldVal.from_bits 0b11).get ENUM_VALUE =
      Except.error "expected one of 0b00, 0b01, or 0b10" ∧
    (BitfieldVal.from_bits 0b11).try_get ENUM_VALUE =
      Except.error "expected one of 0b00, 0b01, or 0b10" :=
  ⟨rfl,
    (c4_get_panics_iff_rejected.1 TE String ENUM_VALUE
      (BitfieldVal.from_bits 0b11)).1 _ rfl⟩

theorem overlapB_iff (a b : TypedF) :
    overlapB a b = true ↔ ∃ i, FieldBit a i ∧ FieldBit b i := by
  simp only [overlapB, FieldBit, decide_eq_true_eq]
  constructor
  · intro h
    exact ⟨max a.offset b.offset, ⟨by omega, by omega⟩, ⟨by omega, by omega⟩⟩
  · rintro ⟨i, ⟨h1, h2⟩, ⟨h3, h4⟩⟩
    omega

theorem findOverlap_eq_none (fs : List (String × TypedF)) :
    findOverlap fs = none ↔
      List.Pairwise (fun a b => ∀ i, ¬ (FieldBit a.2 i ∧ FieldBit b.2 i)) fs := by
  induction fs with
  | nil => simp [findOverlap]
  | cons p rest ih =>
    obtain ⟨n, f⟩ := p
    rw [List.pairwise_cons]
    show (match rest.find? (fun q => overlapB f q.2) with
      | some (m, _) => some (n, m)
      | none => findOverlap rest) = none ↔ _
    cases hfind : rest.find? (fun q => overlapB f q.2) with
    | some q =>
      obtain ⟨m, g⟩ := q
      simp only [hfind]
      constructor
      · intro h
        exact absurd h (by simp)
      · intro h
        have hmem := List.mem_of_find?_eq_some hfind
        have hover := List.find?_some hfind
        obtain ⟨i, hi⟩ := (overlapB_iff f g).mp hover
        exact absurd hi (h.1 (m, g) hmem i)
    | none =>
      simp only [hfind]
      rw [ih]
      have hnone : ∀ q ∈ rest, ∀ i, ¬ (FieldBit f i ∧ FieldBit q.2 i) := by
        intro q hq i hi
        have := List.find?_eq_none.mp hfind q hq
        exact this ((overlapB_iff f q.2).mpr ⟨i, hi⟩)
      constructor
      · intro h
        exact ⟨fun b hb => hnone b hb, h⟩
      · intro h
        exact h.2

theorem firstDisorder_eq_none (l : List (String × Nat)) :
    firstDisorder l = none ↔ List.Pairwise (fun a b => a.2 < b.2) l := by
  induction l with
  | nil => simp [firstDisorder]
  | cons p t ih =>
    obtain ⟨n, a⟩ := p
    cases t with
    | nil => simp [firstDisorder]
    | cons q t' =>
      obtain ⟨m, b⟩ := q
      rw [List.pairwise_cons]
      by_cases hab : a < b
      · show (if a < b then firstDisorder ((m, b) :: t') else some m) = none ↔ _
        rw [if_pos hab, ih]
        constructor
        · intro h
          refine ⟨?_, h⟩
          intro x hx
          rcases List.mem_cons.mp hx with hx | hx
          · subst hx; exact hab
          · have hb := (List.pairwise_cons.mp h).1 x hx
            exact lt_trans hab hb
        · intro h
          exact h.2
      · show (if a < b then firstDisorder ((m, b) :: t') else some m) = none ↔ _
        rw [if_neg hab]
        constructor
        · intro h
          exact absurd h (by simp)
        · intro h
          exact absurd (h.1 (m, b) (List.mem_cons_self _ _)) hab

/-- C7: `assert_valid` (delegating to `assert_all_valid` over the registry)
panics — here `Except.error`, naming the violated field and reason — if and
only if some pair of fields' bit ranges overlap, some field's range exceeds
`[0, TOTAL_BITS)`, or the non-reserved fields are not strictly ordered by
ascending offset in declaration order; on a registry with none of these
violations it returns normally. -/
theorem c7_assert_valid_iff (W : Nat) (fs : List (String × TypedF)) :
    assert_valid W fs = Except.ok () ↔ ¬ RegistryViolation W fs := by
  unfold assert_valid assert_all_valid RegistryViolation
  cases h1 : fs.find? (fun p => !(decide (p.2.offset + p.2.width ≤ W))) with
  | some p =>
    obtain ⟨n, f⟩ := p
    have hmem := List.mem_of_find?_eq_some h1
    have hviol := List.find?_some h1
    simp only [Bool.not_eq_eq_eq_not, Bool.not_true, decide_eq_false_iff_not]
      at hviol
    constructor
    · intro h
      exact absurd h (by simp)
    · intro h
      exact absurd (Or.inr (Or.inl ⟨(n, f), hmem, hviol⟩)) h
  | none =>
    have hrange : ∀ p ∈ fs, p.2.offset + p.2.width ≤ W := by
      intro p hp
      have := List.find?_eq_none.mp h1 p hp
      simpa using this
    cases h2 : findOverlap fs with
    | some nm =>
      obtain ⟨nn, mm⟩ := nm
      have hnp : ¬ List.Pairwise
          (fun a b => ∀ i, ¬ (FieldBit a.2 i ∧ FieldBit b.2 i)) fs := by
        intro hp
        rw [← findOverlap_eq_none fs] at hp
        rw [h2] at hp
        exact absurd hp (by simp)
      constructor
      · intro h
        exact absurd h (by simp)
      · intro h
        exact absurd (Or.inl hnp) h
    | none =>
      cases h3 : firstDisorder (nonReservedOffsets fs) with
      | some m =>
        have hnp : ¬ List.Pairwise (fun a b => a.2 < b.2)
            (nonReservedOffsets fs) := by
          intro hp
          rw [← firstDisorder_eq_none] at hp
          rw [h3] at hp
          exact absurd hp (by simp)
        constructor
        · intro h
          exact absurd h (by simp)
        · intro h
          exact absurd (Or.inr (Or.inr hnp)) h
      | none =>
        simp only [iff_true_intro rfl, true_iff]
        intro h
        rcases h with h | h | h
        · exact h ((findOverlap_eq_none fs).mp h2)
        · obtain ⟨p, hp, hv⟩ := h
          exact hv (hrange p hp)
        · exact h ((firstDisorder_eq_none _).mp h3)

theorem mkFieldsGo_spec (W : Nat) (decls : List Decl) :
    ∀ prev : EField, remTrailing decls = true → prev.wordBits = W →
    prev.offset + prev.width + declsWidth decls ≤ W →
    (∀ f0, (mkFieldsGo W prev decls).head? = some f0 →
        f0.offset = prev.offset + prev.width)
    ∧ List.Chain' (fun a b => b.offset = a.offset + a.width)
        (mkFieldsGo W prev decls)
    ∧ ((∃ n, decls.getLast? = some (Decl.rem n)) →
        ∀ fl, (mkFieldsGo W prev decls).getLast? = some fl →
          fl.offset + fl.width = W)
    ∧ (∀ f ∈ mkFieldsGo W prev decls, f.offset + f.width ≤ W)
    ∧ (mkFieldsGo W prev decls = [] ↔ decls = []) := by
  induction decls with
  | nil =>
    intro prev _ _ _
    refine ⟨?_, ?_, ?_, ?_, ?_⟩ <;> simp [mkFieldsGo]
  | cons d rest ih =>
    intro prev htr hpw hbound
    cases d with
    | lit n w =>
      simp only [mkFieldsGo, EField.toField, Field.next]
      set e : EField :=
        { name := n, wordBits := prev.wordBits
          offset := prev.offset + prev.width, width := w, c := natAny W }
        with he
      have hepw : e.wordBits = W := hpw
      have htr' : remTrailing rest = true := htr
      have hbound' : e.offset + e.width + declsWidth rest ≤ W := by
        simp only [he]
        have : declsWidth (Decl.lit n w :: rest) = w + declsWidth rest := rfl
        omega
      obtain ⟨ihh, ihc, ihl, ihm, ihe⟩ := ih e htr' hepw hbound'
      refine ⟨?_, ?_, ?_, ?_, ?_⟩
      · intro f0 h0
        simp only [List.head?_cons, Option.some.injEq] at h0
        subst h0
        rfl
      · rw [List.chain'_cons']
        exact ⟨fun b hb => (ihh b hb).symm ▸ rfl, ihc⟩
      · rintro ⟨m, hm⟩ fl hfl
        cases hrest : rest with
        | nil =>
          subst hrest
          simp only [List.getLast?_singleton, Option.some.injEq] at hm
          exact Decl.noConfusion hm
        | cons r rest' =>
          subst hrest
          rw [List.getLast?_cons_cons] at hm
          have hne : mkFieldsGo W e (r :: rest') ≠ [] := by
            intro hz
            exact absurd (ihe.mp hz) (by simp)
          obtain ⟨x, xs, hxs⟩ := List.exists_cons_of_ne_nil hne
          rw [hxs] at hfl ihl
          rw [List.getLast?_cons_cons] at hfl
          exact ihl ⟨m, hm⟩ fl hfl
      · intro f hf
        rcases List.mem_cons.mp hf with hf | hf
        · subst hf
          simp only [he]
          have : declsWidth (Decl.lit n w :: rest) = w + declsWidth rest := rfl
          omega
        · exact ihm f hf
      · simp
    | typ n c =>
      simp only [mkFieldsGo, EField.toField, Field.then']
      set e : EField :=
        { name := n, wordBits := prev.wordBits
          offset := prev.offset + prev.width, width := c.cap.WIDTH, c := c }
        with he
      have hepw : e.wordBits = W := hpw
      have htr' : remTrailing rest = true := htr
      have hbound' : e.offset + e.width + declsWidth rest ≤ W := by
        simp only [he]
        have : declsWidth (Decl.typ n c :: rest) =
            c.cap.WIDTH + declsWidth rest := rfl
        omega
      obtain ⟨ihh, ihc, ihl, ihm, ihe⟩ := ih e htr' hepw hbound'
      refine ⟨?_, ?_, ?_, ?_, ?_⟩
      · intro f0 h0
        simp only [List.head?_cons, Option.some.injEq] at h0
        subst h0
        rfl
      · rw [List.chain'_cons']
        exact ⟨fun b hb => (ihh b hb).symm ▸ rfl, ihc⟩
      · rintro ⟨m, hm⟩ fl hfl
        cases hrest : rest with
        | nil =>
          subst hrest
          simp only [List.getLast?_singleton, Option.some.injEq] at hm
          exact Decl.noConfusion hm
        | cons r rest' =>
          subst hrest
          rw [List.getLast?_cons_cons] at hm
          have hne : mkFieldsGo W e (r :: rest') ≠ [] := by
            intro hz
            exact absurd (ihe.mp hz) (by simp)
          obtain ⟨x, xs, hxs⟩ := List.exists_cons_of_ne_nil hne
          rw [hxs] at hfl ihl
          rw [List.getLast?_cons_cons] at hfl
          exact ihl ⟨m, hm⟩ fl hfl
      · intro f hf
        rcases List.mem_cons.mp hf with hf | hf
        · subst hf
          simp only [he]
          have : declsWidth (Decl.typ n c :: rest) =
              c.cap.WIDTH + declsWidth rest := rfl
          omega
        · exact ihm f hf
      · simp
    | rem n =>
      have hrest : rest = [] := by
        have : rest.isEmpty = true := htr
        simpa [List.isEmpty_iff] using this
      subst hrest
      have hble : prev.offset + prev.width ≤ W := by
        have : declsWidth [Decl.rem n] = 0 := rfl
        omega
      simp only [mkFieldsGo, EField.toField, Field.remaining]
      refine ⟨?_, ?_, ?_, ?_, ?_⟩
      · intro f0 h0
        simp only [List.head?_cons, Option.some.injEq] at h0
        subst h0
        rfl
      · simp
      · intro _ fl hfl
        simp only [List.getLast?_singleton, Option.some.injEq] at hfl
        subst hfl
        simp only []
        omega
      · intro f hf
        rcases List.mem_cons.mp hf with hf | hf
        · subst hf
          simp only []
          omega
        · simp at hf
      · simp

/-- C8: for every bitfield type produced by the declaration macro whose
declared widths fit in the word, the registry satisfies the
construction-chain invariant: the first field has offset 0, each subsequent
field starts where the previous one ends, a trailing catch-all field covers
exactly the unused high bits up to `TOTAL_BITS`, and every descriptor
satisfies `offset + width ≤ TOTAL_BITS`. -/
theorem c8_construction_chain (W : Nat) (decls : List Decl)
    (h1 : remTrailing decls = true) (h2 : declsWidth decls ≤ W) :
    C8Prop W decls := by
  unfold C8Prop
  cases decls with
  | nil =>
    refine ⟨?_, ?_, ?_, ?_⟩ <;> simp [mkFields]
  | cons d rest =>
    cases d with
    | lit n w =>
      simp only [mkFields, Field.least_significant, Field.typed]
      set e : EField :=
        { name := n, wordBits := W, offset := 0, width := w, c := natAny W }
        with he
      have htr' : remTrailing rest = true := h1
      have hbound' : e.offset + e.width + declsWidth rest ≤ W := by
        simp only [he]
        have : declsWidth (Decl.lit n w :: rest) = w + declsWidth rest := rfl
        omega
      obtain ⟨ihh, ihc, ihl, ihm, ihe⟩ :=
        mkFieldsGo_spec W rest e htr' rfl hbound'
      refine ⟨?_, ?_, ?_, ?_⟩
      · intro f0 h0
        simp only [List.head?_cons, Option.some.injEq] at h0
        subst h0
        rfl
      · rw [List.chain'_cons']
        exact ⟨fun b hb => (ihh b hb).symm ▸ rfl, ihc⟩
      · rintro ⟨m, hm⟩ fl hfl
        cases hrest : rest with
        | nil =>
          subst hrest
          simp only [List.getLast?_singleton, Option.some.injEq] at hm
          exact Decl.noConfusion hm
        | cons r rest' =>
          subst hrest
          rw [List.getLast?_cons_cons] at hm
          have hne : mkFieldsGo W e (r :: rest') ≠ [] := by
            intro hz
            exact absurd (ihe.mp hz) (by simp)
          obtain ⟨x, xs, hxs⟩ := List.exists_cons_of_ne_nil hne
          rw [hxs] at hfl ihl
          rw [List.getLast?_cons_cons] at hfl
          exact ihl ⟨m, hm⟩ fl hfl
      · intro f hf
        rcases List.mem_cons.mp hf with hf | hf
        · subst hf
          simp only [he]
          have : declsWidth (Decl.lit n w :: rest) = w + declsWidth rest := rfl
          omega
        · exact ihm f hf
    | typ n c =>
      simp only [mkFields, Field.first]
      set e : EField :=
        { name := n, wordBits := W, offset := 0, width := c.cap.WIDTH, c := c }
        with he
      have htr' : remTrailing rest = true := h1
      have hbound' : e.offset + e.width + declsWidth rest ≤ W := by
        simp only [he]
        have : declsWidth (Decl.typ n c :: rest) =
            c.cap.WIDTH + declsWidth rest := rfl
        omega
      obtain ⟨ihh, ihc, ihl, ihm, ihe⟩ :=
        mkFieldsGo_spec W rest e htr' rfl hbound'
      refine ⟨?_, ?_, ?_, ?_⟩
      · intro f0 h0
        simp only [List.head?_cons, Option.some.injEq] at h0
        subst h0
        rfl
      · rw [List.chain'_cons']
        exact ⟨fun b hb => (ihh b hb).symm ▸ rfl, ihc⟩
      · rintro ⟨m, hm⟩ fl hfl
        cases hrest : rest with
        | nil =>
          subst hrest
          simp only [List.getLast?_singleton, Option.some.injEq] at hm
          exact Decl.noConfusion hm
        | cons r rest' =>
          subst hrest
          rw [List.getLast?_cons_cons] at hm
          have hne : mkFieldsGo W e (r :: rest') ≠ [] := by
            intro hz
            exact absurd (ihe.mp hz) (by simp)
          obtain ⟨x, xs, hxs⟩ := List.exists_cons_of_ne_nil hne
          rw [hxs] at hfl ihl
          rw [List.getLast?_cons_cons] at hfl
          exact ihl ⟨m, hm⟩ fl hfl
      · intro f hf
        rcases List.mem_cons.mp hf with hf | hf
        · subst hf
          simp only [he]
          have : declsWidth (Decl.typ n c :: rest) =
              c.cap.WIDTH + declsWidth rest := rfl
          omega
        · exact ihm f hf
    | rem n =>
      refine ⟨?_, ?_, ?_, ?_⟩ <;> simp [mkFields]

/-- Witness for `c8_construction_chain` on a three-field declaration list
with a trailing catch-all over an 8-bit word. -/
theorem c8_construction_chain_witness :
    remTrailing [Decl.lit "A" 3, Decl.lit "B" 2, Decl.rem "REST"] = true ∧
    declsWidth [Decl.lit "A" 3, Decl.lit "B" 2, Decl.rem "REST"] ≤ 8 ∧
    C8Prop 8 [Decl.lit "A" 3, Decl.lit "B" 2, Decl.rem "REST"] :=
  ⟨rfl, by decide,
    c8_construction_chain 8 [Decl.lit "A" 3, Decl.lit "B" 2, Decl.rem "REST"]
      rfl (by decide)⟩

theorem binCore_length_le (k : Nat) : ∀ n, n < 2 ^ k → (binCore n).length ≤ k := by
  induction k with
  | zero =>
    intro n h
    have hn : n = 0 := by simpa using h
    subst hn
    simp [binCore]
  | succ k ih =>
    intro n h
    match n with
    | 0 => simp [binCore]
    | m + 1 =>
      rw [binCore, List.length_append]
      have hp : (2 : Nat) ^ (k + 1) = 2 ^ k * 2 := pow_succ 2 k
      have h2 : (m + 1) / 2 < 2 ^ k := by omega
      have h3 := ih _ h2
      simp only [List.length_cons, List.length_nil]
      omega

theorem rustBinFmt_length (width n : Nat) (hn : n < 2 ^ width)
    (hw : 0 < width) : (rustBinFmt width n).length = width := by
  have hmk : ∀ l : List Char, (String.mk l).length = l.length := fun l => rfl
  unfold rustBinFmt
  simp only [hmk, List.length_append, List.length_replicate]
  by_cases h0 : n = 0
  · simp [h0]
    omega
  · simp only [h0, if_false]
    have := binCore_length_le width n hn
    omega

theorem Field.unpack_bits_lt (f : Field V E) (raw : Nat) :
    f.unpack_bits raw < 2 ^ f.width := by
  unfold Field.unpack_bits
  rw [Nat.shiftRight_eq_div_pow]
  have h1 : raw &&& f.mask ≤ f.mask := Nat.and_le_right
  have h2 : f.mask = (2 ^ f.width - 1) * 2 ^ f.offset := by
    simp [Field.mask, Nat.shiftLeft_eq, Nat.one_shiftLeft]
  have h3 : (raw &&& f.mask) / 2 ^ f.offset ≤ 2 ^ f.width - 1 := by
    calc (raw &&& f.mask) / 2 ^ f.offset
        ≤ f.mask / 2 ^ f.offset := Nat.div_le_div_right h1
      _ = 2 ^ f.width - 1 := by
          rw [h2]
          exact Nat.mul_div_cancel _ (Nat.pos_pow_of_pos _ (by omega))
  have h4 : 0 < 2 ^ f.width := Nat.pos_pow_of_pos _ (by omega)
  omega

theorem debugRender_names (fs : List EField) (raw : Nat) :
    ∀ entries, debugRender fs raw = Except.ok entries →
      entries.map Prod.fst = fs.map EField.name := by
  induction fs with
  | nil =>
    intro entries h
    simp only [debugRender] at h
    cases h
    simp
  | cons f rest ih =>
    intro entries h
    cases he : debugEntry f raw with
    | error u => simp [debugRender, he] at h
    | ok e =>
      cases hr : debugRender rest raw with
      | error u => simp [debugRender, he, hr] at h
      | ok es =>
        simp only [debugRender, he, hr, Except.ok.injEq] at h
        subst h
        have hname : e.1 = f.name := by
          cases hc : f.tryConv raw with
          | error er => simp [debugEntry, hc] at he
          | ok v =>
            simp only [debugEntry, hc, Except.ok.injEq] at he
            rw [← he]
        simp only [List.map_cons]
        rw [ih es hr, hname]

theorem annRows_filter (W mL rm : Nat) (fs : List EField) (raw : Nat) :
    ∀ l, annRows W mL rm fs raw l =
      annRows W mL rm fs raw
        (l.filter (fun f => !(isReserved f.name))) := by
  intro l
  induction l with
  | nil => rfl
  | cons f rest ih =>
    by_cases hf : isReserved f.name = true
    · rw [show (f :: rest).filter (fun f => !(isReserved f.name)) =
          rest.filter (fun f => !(isReserved f.name)) by
        simp [List.filter_cons, hf]]
      rw [show annRows W mL rm fs raw (f :: rest) =
          annRows W mL rm fs raw rest by
        simp [annRows, hf]]
      exact ih
    · rw [show (f :: rest).filter (fun f => !(isReserved f.name)) =
          f :: rest.filter (fun f => !(isReserved f.name)) by
        simp [List.filter_cons, hf]]
      simp only [annRows, hf, if_false]
      rw [ih]

theorem annRows_ok (W mL rm : Nat) (fs : List EField) (raw : Nat) :
    ∀ l rows, annRows W mL rm fs raw l = Except.ok rows →
      rows.length = (nonRes l).length ∧
      ∀ i (hi : i < rows.length) (hj : i < (nonRes l).length),
        ∃ pre, rows.get ⟨i, hi⟩ =
          pre ++ annSuffix raw ((nonRes l).get ⟨i, hj⟩) := by
  intro l
  induction l with
  | nil =>
    intro rows h
    simp only [annRows] at h
    cases h
    exact ⟨rfl, fun i hi => absurd hi (by simp)⟩
  | cons f rest ih =>
    intro rows h
    by_cases hf : isReserved f.name = true
    · rw [show annRows W mL rm fs raw (f :: rest) =
          annRows W mL rm fs raw rest by simp [annRows, hf]] at h
      rw [show nonRes (f :: rest) = nonRes rest by
        simp [nonRes, List.filter_cons, hf]]
      exact ih rows h
    · rw [show nonRes (f :: rest) = f :: nonRes rest by
        simp [nonRes, List.filter_cons, hf]]
      cases ha : annRow W mL rm fs raw f with
      | error u => simp [annRows, hf, ha] at h
      | ok r =>
        cases hr2 : annRows W mL rm fs raw rest with
        | error u => simp [annRows, hf, ha, hr2] at h
        | ok rs =>
          simp only [annRows, hf, ha, hr2, Bool.false_eq_true, if_false,
            Except.ok.injEq] at h
          subst h
          have hrpre : ∃ pre, r = pre ++ annSuffix raw f := by
            cases hc : f.tryConv raw with
            | error e => simp [annRow, hc] at ha
            | ok v =>
              simp only [annRow, hc, Except.ok.injEq] at ha
              exact ⟨_, ha.symm⟩
          obtain ⟨ihl, ihg⟩ := ih rs hr2
          refine ⟨by simp [ihl], ?_⟩
          intro i hi hj
          match i with
          | 0 =>
            obtain ⟨pre, hp⟩ := hrpre
            exact ⟨pre, by simpa using hp⟩
          | Nat.succ i =>
            simp only [List.get_cons_succ]
            exact ihg i (by simpa using hi) (by simpa using hj)

/-- C5 (counterexample): in the doc-example bitfield, the `Debug` output
contains an entry for the reserved field `_RESERVED` — the generated `Debug`
implementation (bitfield.rs lines 285-295) iterates every declared field
with no reserved-name filter, contradicting the claim that reserved fields
are excluded from `Debug` output. -/
theorem c5_counterexample :
    (debugRender mfFields 5173).toOption.map (List.map Prod.fst) =
      some ["HELLO", "_RESERVED", "WORLD"] ∧
    isReserved "_RESERVED" = true :=
  ⟨rfl, by decide⟩

/-- C5 (amended): fields whose name carries the reserved marker are excluded
from the per-field `Display` annotation rows, but `Debug` output contains an
entry for every declared field, reserved ones included; non-reserved fields
appear in both. -/
theorem c5_reserved_field_visibility (fs : List EField) (raw : Nat) :
    (∀ entries, debugRender fs raw = Except.ok entries →
      entries.map Prod.fst = fs.map EField.name)
    ∧ (∀ W mL rm l, annRows W mL rm fs raw l =
        annRows W mL rm fs raw
          (l.filter (fun f => !(isReserved f.name)))) :=
  ⟨debugRender_names fs raw, fun W mL rm l => annRows_filter W mL rm fs raw l⟩

/-- Witness for `c5_reserved_field_visibility`: the `Debug` entries of the
doc-example bitfield carry exactly the declared field names, reserved one
included. -/
theorem c5_reserved_field_visibility_witness :
    debugRender mfFields 5173 =
      Except.ok [("HELLO", "53"), ("_RESERVED", "0"), ("WORLD", "5")] ∧
    [("HELLO", "53"), ("_RESERVED", "0"), ("WORLD", "5")].map Prod.fst =
      mfFields.map EField.name :=
  ⟨rfl, (c5_reserved_field_visibility mfFields 5173).1 _ rfl⟩

/-- C9: whenever the `Display` rendering succeeds, its first line is the raw
integer as a zero-padded binary string of exactly `TOTAL_BITS` characters,
and it contains exactly one annotation row per non-reserved field, in
declaration order, each ending with the field name, the `Debug` rendering of
its unpacked value, and the field's raw bits as a zero-padded binary string
of width equal to the field's width. -/
theorem c9_display_structure (W : Nat) (fs : List EField) (raw : Nat)
    (hraw : raw < 2 ^ W) (hW : 0 < W)
    (hflds : ∀ f ∈ fs, 0 < f.width ∧ f.offset + f.width ≤ W) :
    C9Prop W fs raw := by
  intro lines h
  cases ha : annRows W (rulerRun W fs).maxLen (rulerRun W fs).rem fs raw fs with
  | error u => simp [displayLines, ha] at h
  | ok rows =>
    simp only [displayLines, ha, Except.ok.injEq] at h
    subst h
    obtain ⟨hlen, hidx⟩ := annRows_ok _ _ _ fs raw fs rows ha
    refine ⟨⟨_, rfl⟩, rustBinFmt_length W raw hraw hW, by simpa using hlen, ?_⟩
    intro i hi hj
    have hi2 : i < rows.length := by simpa using hi
    constructor
    · obtain ⟨pre, hp⟩ := hidx i hi2 hj
      exact ⟨pre, by simpa using hp⟩
    · have hmem : (nonRes fs).get ⟨i, hj⟩ ∈ nonRes fs := List.get_mem _ _ _
      have hmem2 : (nonRes fs).get ⟨i, hj⟩ ∈ fs := List.mem_of_mem_filter hmem
      exact rustBinFmt_length _ _
        (Field.unpack_bits_lt ((nonRes fs).get ⟨i, hj⟩).toField raw)
        (hflds _ hmem2).1

/-- Witness for `c9_display_structure` at the doc-example bitfield and the
doc-example raw word. -/
theorem c9_display_structure_witness :
    5173 < 2 ^ 16 ∧ 0 < 16 ∧
    (∀ f ∈ mfFields, 0 < f.width ∧ f.offset + f.width ≤ 16) ∧
    C9Prop 16 mfFields 5173 := by
  have hmf : mfFields =
      [{ name := "HELLO", wordBits := 16, offset := 0, width := 6
         c := natAny 16 },
       { name := "_RESERVED", wordBits := 16, offset := 6, width := 4
         c := natAny 16 },
       { name := "WORLD", wordBits := 16, offset := 10, width := 3
         c := natAny 16 }] := rfl
  have hflds : ∀ f ∈ mfFields, 0 < f.width ∧ f.offset + f.width ≤ 16 := by
    intro f hf
    rw [hmf] at hf
    rcases List.mem_cons.mp hf with h | hf
    · subst h; exact ⟨by decide, by decide⟩
    rcases List.mem_cons.mp hf with h | hf
    · subst h; exact ⟨by decide, by decide⟩
    rcases List.mem_cons.mp hf with h | hf
    · subst h; exact ⟨by decide, by decide⟩
    · simp at hf
  exact ⟨by decide, by decide, hflds,
    c9_display_structure 16 mfFields 5173 (by decide) (by decide) hflds⟩

theorem displayLines_mf_ok : (displayLines 16 mfFields 5173).isOk = true := by
  decide

theorem debugRender_isOk_iff (fs : List EField) (raw : Nat) :
    (debugRender fs raw).isOk = false ↔
      ∃ f ∈ fs, (f.tryConv raw).isOk = false := by
  induction fs with
  | nil => simp [debugRender, Except.isOk, Except.toBool]
  | cons f rest ih =>
    cases hc : f.tryConv raw with
    | error e =>
      have hde : debugEntry f raw = Except.error () := by
        simp [debugEntry, hc]
      constructor
      · intro _
        exact ⟨f, List.mem_cons_self _ _, by simp [hc, Except.isOk, Except.toBool]⟩
      · intro _
        simp [debugRender, hde, Except.isOk, Except.toBool]
    | ok v =>
      have hde : debugEntry f raw = Except.ok (f.name, f.c.dbg v) := by
        simp [debugEntry, hc]
      have hfok : (f.tryConv raw).isOk = true := by simp [hc, Except.isOk, Except.toBool]
      cases hr : debugRender rest raw with
      | error u =>
        constructor
        · intro _
          obtain ⟨g, hg, hgf⟩ := ih.mp (by simp [hr, Except.isOk, Except.toBool])
          exact ⟨g, List.mem_cons_of_mem _ hg, hgf⟩
        · intro _
          simp [debugRender, hde, hr, Except.isOk, Except.toBool]
      | ok es =>
        constructor
        · intro hfalse
          rw [show debugRender (f :: rest) raw =
              Except.ok ((f.name, f.c.dbg v) :: es) by
            simp [debugRender, hde, hr]] at hfalse
          simp [Except.isOk, Except.toBool] at hfalse
        · rintro ⟨g, hg, hgf⟩
          rcases List.mem_cons.mp hg with hg | hg
          · subst hg
            rw [hfok] at hgf
            exact Bool.noConfusion hgf
          · have hrest : (debugRender rest raw).isOk = false :=
              ih.mpr ⟨g, hg, hgf⟩
            rw [hr] at hrest
            simp [Except.isOk, Except.toBool] at hrest

theorem annRows_isOk_iff (W mL rm : Nat) (fs : List EField) (raw : Nat) :
    ∀ l, (annRows W mL rm fs raw l).isOk = false ↔
      ∃ f ∈ l, isReserved f.name = false ∧ (f.tryConv raw).isOk = false := by
  intro l
  induction l with
  | nil => simp [annRows, Except.isOk, Except.toBool]
  | cons f rest ih =>
    by_cases hf : isReserved f.name = true
    · rw [show annRows W mL rm fs raw (f :: rest) =
          annRows W mL rm fs raw rest by simp [annRows, hf]]
      rw [ih]
      constructor
      · rintro ⟨g, hg, hgp⟩
        exact ⟨g, List.mem_cons_of_mem _ hg, hgp⟩
      · rintro ⟨g, hg, hns, hgf⟩
        rcases List.mem_cons.mp hg with hg | hg
        · subst hg
          rw [hf] at hns
          exact Bool.noConfusion hns
        · exact ⟨g, hg, hns, hgf⟩
    · have hf2 : isReserved f.name = false :=
        Bool.eq_false_iff.mpr hf
      cases hc : f.tryConv raw with
      | error e =>
        have hwhole : annRows W mL rm fs raw (f :: rest) =
            Except.error () := by
          have ha : annRow W mL rm fs raw f = Except.error () := by
            simp [annRow, hc]
          simp [annRows, hf, ha]
        rw [hwhole]
        constructor
        · intro _
          exact ⟨f, List.mem_cons_self _ _, hf2, by simp [hc, Except.isOk, Except.toBool]⟩
        · intro _
          simp [Except.isOk, Except.toBool]
      | ok v =>
        cases har : annRow W mL rm fs raw f with
        | error u => simp [annRow, hc] at har
        | ok r =>
          cases hr : annRows W mL rm fs raw rest with
          | error u =>
            have hwhole : annRows W mL rm fs raw (f :: rest) =
                Except.error u := by
              simp [annRows, hf, har, hr]
            rw [hwhole]
            constructor
            · intro _
              obtain ⟨g, hg, hgp⟩ := ih.mp (by simp [hr, Except.isOk, Except.toBool])
              exact ⟨g, List.mem_cons_of_mem _ hg, hgp⟩
            · intro _
              simp [Except.isOk, Except.toBool]
          | ok rs =>
            have hwhole : annRows W mL rm fs raw (f :: rest) =
                Except.ok (r :: rs) := by
              simp [annRows, hf, har, hr]
            rw [hwhole]
            constructor
            · intro hfalse
              simp [Except.isOk, Except.toBool] at hfalse
            · rintro ⟨g, hg, hns, hgf⟩
              rcases List.mem_cons.mp hg with hg | hg
              · subst hg
                rw [show (g.tryConv raw).isOk = true by
                  simp [hc, Except.isOk, Except.toBool]] at hgf
                exact Bool.noConfusion hgf
              · have hrest : (annRows W mL rm fs raw rest).isOk = false :=
                  ih.mpr ⟨g, hg, hns, hgf⟩
                rw [hr] at hrest
                simp [Except.isOk, Except.toBool] at hrest

theorem displayLines_isOk (W : Nat) (fs : List EField) (raw : Nat) :
    (displayLines W fs raw).isOk =
      (annRows W (rulerRun W fs).maxLen (rulerRun W fs).rem fs raw fs).isOk := by
  cases ha : annRows W (rulerRun W fs).maxLen (rulerRun W fs).rem fs raw fs with
  | error u => simp [displayLines, ha, Except.isOk, Except.toBool]
  | ok rows => simp [displayLines, ha, Except.isOk, Except.toBool]

/-- C10 (counterexample): a bitfield whose only declared field is a reserved
typed 2-bit enum field `_E` rejecting the pattern `0b11`: at raw word 3 the
`Debug` implementation panics — it unpacks every declared field — but the
`Display` implementation succeeds, because its annotation rows skip reserved
fields and never unpack them, contradicting the claim that both panic. -/
theorem c10_counterexample :
    debugRender (mkFields 8 [Decl.typ "_E" teAny]) 3 = Except.error () ∧
    (displayLines 8 (mkFields 8 [Decl.typ "_E" teAny]) 3).isOk = true ∧
    (∃ f ∈ mkFields 8 [Decl.typ "_E" teAny], (f.tryConv 3).isOk = false) := by
  refine ⟨rfl, by decide,
    ⟨{ name := "_E", wordBits := 8, offset := 0, width := 2, c := teAny },
      ?_, by decide⟩⟩
  rw [show mkFields 8 [Decl.typ "_E" teAny] =
      [{ name := "_E", wordBits := 8, offset := 0, width := 2
         c := teAny }] from rfl]
  exact List.mem_singleton.mpr rfl

/-- C10 (amended): `Debug` formatting panics exactly when some declared
field's `try_from_bits` rejects the extracted bits — it invokes the
panicking `get` for every declared field — while `Display` formatting panics
exactly when some non-reserved field's conversion rejects, since its
annotation rows skip reserved fields and never unpack them. -/
theorem c10_format_panic_conditions (W : Nat) (fs : List EField) (raw : Nat) :
    ((debugRender fs raw).isOk = false ↔
      ∃ f ∈ fs, (f.tryConv raw).isOk = false)
    ∧ ((displayLines W fs raw).isOk = false ↔
      ∃ f ∈ fs, isReserved f.name = false ∧
        (f.tryConv raw).isOk = false) := by
  refine ⟨debugRender_isOk_iff fs raw, ?_⟩
  rw [displayLines_isOk]
  exact annRows_isOk_iff _ _ _ fs raw fs

/-- C6: building a value from `new()` by chaining `with(field, value)` and
building one from `new()` by chaining `set(field, value)` over the same
sequence of (field, value) pairs produce bit-identical raw words. -/
theorem c6_with_set_chains_equal (ws : List SomeWrite) :
    withChain BitfieldVal.new ws = setChain BitfieldVal.new ws := by
  suffices h : ∀ b, withChain b ws = setChain b ws from h _
  induction ws with
  | nil => intro b; rfl
  | cons w ws ih =>
    intro b
    simp only [withChain, setChain]
    exact ih _

end Mycelium
